import Mathlib

/-!
Shallow embedding of the core DSP engine of the signals-systems-simulator
repository (src/core/signal_generator.py, src/core/system_analyzer.py,
src/core/transform.py), together with theorems settling the frozen claims
about its specification.

Modelling conventions:
* Python floats are modelled by exact rationals (ℚ) where the code only
  performs field operations and comparisons, and by ℝ/ℂ where transcendental
  functions (sin, cos, exp) appear.
* A Python function that can raise an uncaught exception is modelled as an
  Option-valued function, `none` standing for the raised exception.
* numpy operations are modelled by their mathematical definitions
  (np.linspace, np.trim_zeros, np.argmin, scipy.signal.lfilter).
-/

namespace SigSim

/-- Endpoint-excluding linear grid `np.linspace(start, stop, num,
endpoint=False)`: `num` samples `start + i * (stop - start) / num`. -/
def linspaceEx (start stop : ℚ) (num : ℕ) : List ℚ :=
  (List.range num).map (fun (i : ℕ) => start + (i : ℚ) * (stop - start) / (num : ℚ))

/-- Endpoint-including linear grid `np.linspace(start, stop, num)`: `num`
samples with `num - 1` equal steps; a single-sample grid is `[start]`. -/
def linspaceIn (start stop : ℚ) (num : ℕ) : List ℚ :=
  if num = 1 then [start]
  else (List.range num).map (fun (i : ℕ) => start + (i : ℚ) * (stop - start) / ((num : ℚ) - 1))

/-- Time vector of `SignalGenerator.__init__` / `set_parameters`:
`np.linspace(0, duration, int(fs * duration), endpoint=False)`.  Python
`int()` truncates toward zero; for the nonnegative products produced by
positive parameters this is the floor. -/
def timeVec (fs duration : ℚ) : List ℚ :=
  linspaceEx 0 duration (Int.toNat ⌊fs * duration⌋)

/-- Leading-zero trimming `np.trim_zeros(arr, trim = 'f')`: drops the leading
elements that are exactly zero. -/
def trimZeros : List ℚ → List ℚ
  | [] => []
  | x :: xs => if x = 0 then trimZeros xs else x :: xs

/-- Custom System branch of `SystemAnalyzer.create_system` (lines 81-104),
after the `eval` of the two coefficient strings has produced the arrays `b`
and `a` (string parsing itself is outside the model).  `none` models the
raised `ValueError` ("Invalid system coefficients").  The code first rejects
arrays that are empty before trimming, then trims leading exact zeros,
substitutes `[0.0]` / `[1.0]` for arrays that became empty, and finally
rejects a leading denominator coefficient of magnitude below `1e-12`. -/
def customSystem (b a : List ℚ) : Option (List ℚ × List ℚ) :=
  if b = [] ∨ a = [] then none
  else
    let bTr := trimZeros b
    let aTr := trimZeros a
    let b2 := if bTr = [] then [0] else bTr
    let a2 := if aTr = [] then [1] else aTr
    if |a2.headD 0| < 1 / 1000000000000 then none else some (b2, a2)

/-- Band-pass branch of `SystemAnalyzer.create_system` (lines 50-62): the
pair of cutoffs actually passed on to the Butterworth design.  The code
clamps `lowcut` up to `0.1` and `highcut` down to `0.99 * nyquist` and only
substitutes the fixed pair `(5, 15)` when the clamped values satisfy
`lowcut >= highcut`. -/
def bandpassCuts (fs lowcut highcut : ℚ) : ℚ × ℚ :=
  let nyquist := fs / 2
  let l := max lowcut (1 / 10)
  let h := min highcut (nyquist * (99 / 100))
  if h ≤ l then (5, 15) else (l, h)

/-- Moving Average branch of `SystemAnalyzer.create_system` (lines 63-68):
window clamped to at least 1, `b = np.ones(N) / N`, `a = [1.0]`. -/
def movingAverage (w : ℤ) : List ℚ × List ℚ :=
  let n := Int.toNat (if w < 1 then 1 else w)
  (List.replicate n (1 / (n : ℚ)), [1])

/-- Value appended at step `n` by the direct-form filtering kernel, given the
already-computed outputs `ys = [y 0, …, y (n-1)]`:
`y n = (Σ_{k<len b} b k * x (n-k) - Σ_{1≤k<len a} a k * y (n-k)) / a 0`,
where an `x` or `y` access with negative index contributes `0`. -/
def lfilterVal (b a x ys : List ℚ) (n : ℕ) : ℚ :=
  ((∑ k ∈ Finset.range b.length,
      b.getD k 0 * (if k ≤ n then x.getD (n - k) 0 else 0)) -
    (∑ k ∈ Finset.range a.length,
      if k = 0 then 0 else
        a.getD k 0 * (if k ≤ n then ys.getD (n - k) 0 else 0))) / a.getD 0 0

/-- First `n` outputs of the filtering kernel. -/
def lfilterAux (b a x : List ℚ) : ℕ → List ℚ
  | 0 => []
  | n + 1 =>
    let ys := lfilterAux b a x n
    ys ++ [lfilterVal b a x ys n]

/-- Recursive digital filter `scipy.signal.lfilter(b, a, x)` (the shared
filtering kernel of `SystemAnalyzer.apply_system` and the response
fallbacks): one output sample per input sample. -/
def lfilter (b a x : List ℚ) : List ℚ :=
  lfilterAux b a x x.length

/-- Unit impulse input of length `n` used by the `lfilter` response paths:
`np.zeros(N)` with element 0 set to `1.0`. -/
def unitImpulse (n : ℕ) : List ℚ :=
  (List.range n).map (fun (i : ℕ) => if i = 0 then 1 else 0)

/-- Impulse response `SystemAnalyzer.impulse_response` on an explicit time
vector `t` (lines 110-141).  Static-gain branch (`len a = len b = 1`): the
code builds `np.zeros_like(t)` and assigns index 0, which raises an
`IndexError` when `t` is empty — modelled as `none`.  The remaining branches
(improper system via `lfilter`, proper system via `dimpulse` with an
`lfilter` fallback) all compute the response of the same recurrence in exact
arithmetic and are modelled by the filtering kernel driven by a unit
impulse. -/
def impulseResponse (b a t : List ℚ) : Option (List ℚ) :=
  if a.length = 1 ∧ b.length = 1 then
    match t with
    | [] => none
    | _ :: _ => some (b.headD 0 / a.headD 0 :: List.replicate (t.length - 1) 0)
  else some (lfilter b a (unitImpulse t.length))

/-- Step response `SystemAnalyzer.step_response` on an explicit time vector
`t` (lines 143-170).  Static-gain branch returns `np.full_like(t, b0/a0)`,
which is well defined also on an empty `t`; the remaining branches drive the
filtering kernel with a unit step (`np.ones(N)`). -/
def stepResponse (b a t : List ℚ) : Option (List ℚ) :=
  if a.length = 1 ∧ b.length = 1 then
    some (List.replicate t.length (b.headD 0 / a.headD 0))
  else some (lfilter b a (List.replicate t.length 1))

/-- Minimum of a list of rationals with a fallback initial value, modelling
`np.min` over a nonempty distance array (the comparison chain of
`np.argmin`). -/
def listMinD : List ℚ → ℚ → ℚ
  | [], d => d
  | x :: xs, d => listMinD xs (min d x)

/-- Index returned by `np.argmin(np.abs(t - s))`: the first index of the
time vector at which the distance to `s` attains its minimum. -/
def nearestIdx (t : List ℚ) (s : ℚ) : ℕ :=
  let d := t.map (fun (ti : ℚ) => |ti - s|)
  d.indexOf (listMinD d (d.headD 0))

/-- Signal-type tags recognized by `SignalGenerator.generate` (the string
labels of the branch chain, as a closed variant).  The unknown-label branch
raises `ValueError("Unknown signal type")` and is outside the variant. -/
inductive SignalType
  | sine
  | cosine
  | square
  | triangle
  | sawtooth
  | expDecay
  | unitStep
  | impulse
  | gaussian
  | custom
deriving DecidableEq

/-- Keyword parameters of `SignalGenerator.generate`, with the defaults the
code supplies via `kwargs.get`.  `center` defaults to `duration / 2`, which
depends on the generator state, hence the `Option`.  The Custom Function
branch evaluates an expression string over the time vector; the model takes
the already-parsed function `f` (the `eval` of the string is outside the
model, so the `InvalidExpression` failure path does not arise here). -/
structure SigParams where
  amplitude : ℚ := 1
  frequency : ℚ := 1
  phase : ℚ := 0
  dcOffset : ℚ := 0
  dutyCycle : ℚ := 1 / 2
  width : ℚ := 1 / 2
  decayRate : ℚ := 1
  stepTime : ℚ := 0
  impulseTime : ℚ := 0
  center : Option ℚ := none
  stdDev : ℚ := 1 / 10
  f : ℝ → ℝ := fun _ => 0

/-- Model of `scipy.signal.square(theta, duty)`: `+1` on the first `duty`
fraction of each `2π` period, `-1` on the rest. -/
noncomputable def squareWave (theta d : ℝ) : ℝ :=
  if Int.fract (theta / (2 * Real.pi)) < d then 1 else -1

/-- Model of `scipy.signal.sawtooth(theta, width)`: rises linearly from `-1`
to `1` over the first `width` fraction of each `2π` period, then falls
linearly back. -/
noncomputable def sawtoothWave (theta w : ℝ) : ℝ :=
  let u := Int.fract (theta / (2 * Real.pi))
  if u < w then 2 * u / w - 1 else 1 - 2 * (u - w) / (1 - w)

/-- Signal generation `SignalGenerator.generate` (lines 26-88).  Every
branch maps a pointwise formula over the time vector and returns
`(self.t.copy(), x)`; the Impulse branch instead calls
`np.argmin(np.abs(self.t - impulse_time))`, which raises a `ValueError` on
an empty time vector — modelled as `none`.  The Impulse branch is also the
only one that does not add `dc_offset`. -/
noncomputable def generate (fs duration : ℚ) (ty : SignalType) (p : SigParams) :
    Option (List ℚ × List ℝ) :=
  let t := timeVec fs duration
  match ty with
  | .sine => some (t, t.map (fun (ti : ℚ) =>
      (p.amplitude : ℝ) * Real.sin (2 * Real.pi * (p.frequency : ℝ) * (ti : ℝ) + (p.phase : ℝ)) +
        (p.dcOffset : ℝ)))
  | .cosine => some (t, t.map (fun (ti : ℚ) =>
      (p.amplitude : ℝ) * Real.cos (2 * Real.pi * (p.frequency : ℝ) * (ti : ℝ) + (p.phase : ℝ)) +
        (p.dcOffset : ℝ)))
  | .square => some (t, t.map (fun (ti : ℚ) =>
      (p.amplitude : ℝ) *
        squareWave (2 * Real.pi * (p.frequency : ℝ) * (ti : ℝ) + (p.phase : ℝ)) (p.dutyCycle : ℝ) +
        (p.dcOffset : ℝ)))
  | .triangle => some (t, t.map (fun (ti : ℚ) =>
      (p.amplitude : ℝ) *
        sawtoothWave (2 * Real.pi * (p.frequency : ℝ) * (ti : ℝ) + (p.phase : ℝ)) (p.width : ℝ) +
        (p.dcOffset : ℝ)))
  | .sawtooth => some (t, t.map (fun (ti : ℚ) =>
      (p.amplitude : ℝ) *
        sawtoothWave (2 * Real.pi * (p.frequency : ℝ) * (ti : ℝ) + (p.phase : ℝ)) 1 +
        (p.dcOffset : ℝ)))
  | .expDecay => some (t, t.map (fun (ti : ℚ) =>
      (p.amplitude : ℝ) * Real.exp (-(p.decayRate : ℝ) * (ti : ℝ)) + (p.dcOffset : ℝ)))
  | .unitStep => some (t, t.map (fun (ti : ℚ) =>
      (p.amplitude : ℝ) * (if (p.stepTime : ℚ) ≤ ti then 1 else 0) + (p.dcOffset : ℝ)))
  | .impulse =>
    match t with
    | [] => none
    | t0 :: tr =>
      some (t0 :: tr, (List.range (t0 :: tr).length).map (fun (j : ℕ) =>
        if j = nearestIdx (t0 :: tr) p.impulseTime then (p.amplitude : ℝ) else 0))
  | .gaussian => some (t, t.map (fun (ti : ℚ) =>
      (p.amplitude : ℝ) *
        Real.exp (-(1 / 2) * (((ti : ℝ) - (p.center.getD (duration / 2) : ℝ)) / (p.stdDev : ℝ)) ^ 2) +
        (p.dcOffset : ℝ)))
  | .custom => some (t, t.map (fun (ti : ℚ) => p.f (ti : ℝ) + (p.dcOffset : ℝ)))

/-- Frequency grid of `scipy.signal.freqz(b, a, worN = n, fs = fs)`:
`n` frequencies linearly spaced on `[0, fs/2)`, the endpoint excluded. -/
def freqzW (n : ℕ) (fs : ℚ) : List ℚ :=
  linspaceEx 0 (fs / 2) n

/-- Fallback grid of `SystemAnalyzer.frequency_response` (line 185):
`np.linspace(0, fs/2, n_points // 2 + 1)` with the endpoint included. -/
def fallbackW (n : ℕ) (fs : ℚ) : List ℚ :=
  linspaceIn 0 (fs / 2) (n / 2 + 1)

/-- Transfer-function value `H(e^{iω}) = (Σ_k b k e^{-iωk}) / (Σ_k a k e^{-iωk})`
computed by `freqz` at angular frequency `ω` (radians per sample).  Division
by a vanishing denominator yields `0` here, matching the code's
`np.nan_to_num(h, nan=0, posinf=0, neginf=0)` sanitization of non-finite
values. -/
noncomputable def freqzH (b a : List ℚ) (omega : ℝ) : ℂ :=
  (∑ k ∈ Finset.range b.length,
      (b.getD k 0 : ℂ) * Complex.exp (-(Complex.I * omega * k))) /
    (∑ k ∈ Finset.range a.length,
      (a.getD k 0 : ℂ) * Complex.exp (-(Complex.I * omega * k)))

/-- Frequency response `SystemAnalyzer.frequency_response` (lines 172-187).
The boolean `freqzFails` selects the `except` path (the model of "the entire
evaluation fails"): on failure the code returns the half-length inclusive
grid with an all-zero complex response; on success it returns the `freqz`
grid and the sanitized response values. -/
noncomputable def frequencyResponse (freqzFails : Bool) (b a : List ℚ) (n : ℕ) (fs : ℚ) :
    List ℚ × List ℂ :=
  if freqzFails then (fallbackW n fs, List.replicate (n / 2 + 1) 0)
  else (freqzW n fs,
    (freqzW n fs).map (fun (w : ℚ) => freqzH b a (2 * Real.pi * (w : ℝ) / (fs : ℝ))))

/-- Forward DFT of `FourierTransform.fft` (transform.py lines 11-33):
`X k = Σ_n x n · e^{-2πi k n / N}`. -/
noncomputable def fftVals (x : List ℝ) : List ℂ :=
  (List.range x.length).map (fun (k : ℕ) =>
    ∑ n ∈ Finset.range x.length,
      (x.getD n 0 : ℂ) * Complex.exp (-(2 * Real.pi * Complex.I) * k * n / x.length))

/-- Frequency bins `scipy.fft.fftfreq(N, 1/fs)`: `k · fs / N` for
`k < ⌈N/2⌉`, then the negative frequencies `(k - N) · fs / N`. -/
def fftfreq (n : ℕ) (fs : ℚ) : List ℚ :=
  (List.range n).map (fun (k : ℕ) =>
    if k < (n + 1) / 2 then (k : ℚ) * fs / n else ((k : ℚ) - n) * fs / n)

/-- Pair returned by `FourierTransform.fft(signal, fs)`. -/
noncomputable def fft (x : List ℝ) (fs : ℚ) : List ℚ × List ℂ :=
  (fftfreq x.length fs, fftVals x)

/-- Inverse FFT `FourierTransform.ifft` (transform.py lines 35-38):
`scipy.fft.ifft(X).real`, i.e. the real part of
`(1/N) Σ_k X k · e^{+2πi k m / N}`. -/
noncomputable def ifft (X : List ℂ) : List ℝ :=
  (List.range X.length).map (fun (m : ℕ) =>
    ((∑ k ∈ Finset.range X.length,
        X.getD k 0 * Complex.exp ((2 * Real.pi * Complex.I) * k * m / X.length)) /
      (X.length : ℂ)).re)

/-- One term `c · z^{-k}` of the polynomial evaluation in
`ZTransform.evaluate`.  Python/numpy raise `0.0` to a negative power as a
`ZeroDivisionError` or a non-finite value; both outcomes are modelled as
`none`. -/
noncomputable def zNegPowTerm (c : ℚ) (z : ℂ) (k : ℕ) : Option ℂ :=
  if k = 0 then some (c : ℂ)
  else if z = 0 then none
  else some ((c : ℂ) * z ^ (-(k : ℤ)))

/-- Sum `Σ_k c k · z^{-k}` over the coefficient list, failing as soon as a
term is non-finite (the numpy sum of a non-finite array is non-finite). -/
noncomputable def zPolySum (c : List ℚ) (z : ℂ) : Option ℂ :=
  if z = 0 ∧ 2 ≤ c.length then none
  else some (∑ k ∈ Finset.range c.length, (c.getD k 0 : ℂ) * z ^ (-(k : ℤ)))

/-- Z-transform evaluation `ZTransform.evaluate(z, b, a)` (transform.py
lines 78-100): `(Σ_k b k z^{-k}) / (Σ_k a k z^{-k})`, with no guard on the
negative powers of `z = 0` and none on the final division — a vanishing
denominator divides out to a non-finite value, modelled as `none`. -/
noncomputable def zEvaluate (z : ℂ) (b a : List ℚ) : Option ℂ :=
  match zPolySum b z, zPolySum a z with
  | some num, some den => if den = 0 then none else some (num / den)
  | _, _ => none

/-- Predicate: consecutive entries of the list differ by the constant
`step`. -/
def constStep (l : List ℚ) (step : ℚ) : Prop :=
  ∀ i, i + 1 < l.length → l.getD (i + 1) 0 - l.getD i 0 = step

/-- Predicate: a `generate` result, when it returns, has a time vector and a
sample array of equal length. -/
def sigLensEq (o : Option (List ℚ × List ℝ)) : Prop :=
  ∀ r ∈ o, r.1.length = r.2.length

/-- Predicate: every entry of the list lies in the closed interval
`[lo, hi]`. -/
def inClosedRange (l : List ℚ) (lo hi : ℚ) : Prop :=
  ∀ q ∈ l, lo ≤ q ∧ q ≤ hi

/-- Predicate: the sample array equals `A` at index `idx` and `0` at every
other valid index. -/
def isScaledImpulseAt (x : List ℝ) (idx : ℕ) (A : ℝ) : Prop :=
  x.getD idx 0 = A ∧ ∀ j < x.length, j ≠ idx → x.getD j 0 = 0

/-- Predicate: `idx` is a valid index of `t` whose entry is at least as close
to `s` as every entry of `t`. -/
def isNearestTime (t : List ℚ) (s : ℚ) (idx : ℕ) : Prop :=
  idx < t.length ∧ ∀ j < t.length, |t.getD idx 0 - s| ≤ |t.getD j 0 - s|

/-- C1: `createSystem('Custom System', …)` fails with `InvalidCoefficients`
whenever the numerator or the denominator coefficient array is empty after
trimming leading near-zero coefficients, or when `|a[0]| < 1e-12` after
trimming; in particular the denominator text `[0]` (empty after trim) fails,
while `[0, 1]` (trimmed to `[1]`) succeeds.

The claim is wrong about the arrays that are empty after trimming: the code
only rejects arrays that are empty *before* trimming, and silently
substitutes `[0.0]` for a numerator and `[1.0]` for a denominator that
became empty during trimming, so the denominator `[0]` succeeds (as `[1]`)
instead of failing.  This counterexample exhibits that run. -/
theorem C1_counterexample :
    trimZeros [(0 : ℚ)] = [] ∧ customSystem [1] [0] = some ([1], [1]) := by
  constructor
  · norm_num [trimZeros]
  · simp [customSystem, trimZeros]
    norm_num

/-- C1 (amended): `createSystem('Custom System', …)` fails with
`InvalidCoefficients` exactly when the numerator or the denominator array is
empty before trimming, or when `|a[0]| < 1e-12` after trimming leading exact
zeros with an empty trimming result replaced by `[1]`; the denominator
`[0, 1]` (trimmed to `[1]`) succeeds, and the denominator `[0]` (empty after
trim, replaced by `[1]`) also succeeds. -/
theorem C1_custom_system_failure_characterization (b a : List ℚ) :
    (customSystem b a = none ↔
      b = [] ∨ a = [] ∨
        |(if trimZeros a = [] then [1] else trimZeros a).headD 0| <
          1 / 1000000000000) ∧
    customSystem [1] [0, 1] = some ([1], [1]) ∧
    customSystem [1] [0] = some ([1], [1]) := by
  refine ⟨?_, by simp [customSystem, trimZeros]; norm_num, by simp [customSystem, trimZeros]; norm_num⟩
  by_cases hb : b = []
  · simp [customSystem, hb]
  by_cases ha : a = []
  · simp [customSystem, hb, ha]
  by_cases hlt :
      |(if trimZeros a = [] then [1] else trimZeros a).headD 0| <
        1 / 1000000000000
  · simp [customSystem, hb, ha, hlt]
  · simp [customSystem, hb, ha, hlt]

/-- C2: for every band-pass request whose parameters violate
`0.1 ≤ lowcut < highcut ≤ 0.99·Nyquist`, `createSystem('Band-pass Filter', …)`
silently designs the filter with `lowcut = 5`, `highcut = 15` substituted.

The claim is wrong about the substitution: the code first clamps the two
parameters individually (`lowcut` up to `0.1`, `highcut` down to
`0.99·Nyquist`) and substitutes `(5, 15)` only when the clamped pair is
inverted.  At `fs = 1000`, `lowcut = 0.05`, `highcut = 15` the request
violates `0.1 ≤ lowcut`, yet the designed band is `(0.1, 15)`, not
`(5, 15)`. -/
theorem C2_counterexample :
    ¬ (1 / 10 ≤ (1 / 20 : ℚ)) ∧
    bandpassCuts 1000 (1 / 20) 15 = (1 / 10, 15) ∧
    bandpassCuts 1000 (1 / 20) 15 ≠ (5, 15) := by
  refine ⟨by norm_num, ?_, ?_⟩ <;>
    norm_num [bandpassCuts, max_def, min_def, Prod.ext_iff]

/-- C2 (amended): band-pass construction never fails; the cutoffs actually
used are the clamped values `max lowcut 0.1` and `min highcut 0.99·Nyquist`
whenever the clamped pair is still properly ordered, and parameters that
already satisfy the validity bounds pass through unchanged; the fixed pair
`(5, 15)` is substituted only when the clamped pair is inverted. -/
theorem C2_bandpass_clamping (fs lowcut highcut : ℚ)
    (h : max lowcut (1 / 10) < min highcut (fs / 2 * (99 / 100))) :
    bandpassCuts fs lowcut highcut =
      (max lowcut (1 / 10), min highcut (fs / 2 * (99 / 100))) ∧
    (1 / 10 ≤ lowcut → highcut ≤ fs / 2 * (99 / 100) →
      bandpassCuts fs lowcut highcut = (lowcut, highcut)) := by
  constructor
  · unfold bandpassCuts
    rw [if_neg (not_le.mpr h)]
  · intro h1 h2
    unfold bandpassCuts
    rw [if_neg (not_le.mpr h)]
    rw [max_eq_left h1, min_eq_left h2]

/-- C2 witness: at `fs = 1000`, `lowcut = 0.05`, `highcut = 15` the clamped
pair is properly ordered and the designed band is `(0.1, 15)`. -/
theorem C2_bandpass_clamping_witness :
    max (1 / 20 : ℚ) (1 / 10) < min 15 (1000 / 2 * (99 / 100)) ∧
    bandpassCuts 1000 (1 / 20) 15 =
      (max (1 / 20 : ℚ) (1 / 10), min 15 (1000 / 2 * (99 / 100))) := by
  refine ⟨by norm_num, (C2_bandpass_clamping 1000 (1 / 20) 15 (by norm_num)).1⟩

lemma linspaceEx_length (a b : ℚ) (n : ℕ) : (linspaceEx a b n).length = n := by
  simp [linspaceEx]

lemma linspaceEx_getD (a b : ℚ) (n i : ℕ) (hi : i < n) :
    (linspaceEx a b n).getD i 0 = a + (i : ℚ) * (b - a) / (n : ℚ) := by
  rw [List.getD_eq_getElem _ _ (by simpa [linspaceEx] using hi)]
  simp [linspaceEx]

lemma timeVec_length (fs dur : ℚ) :
    (timeVec fs dur).length = Int.toNat ⌊fs * dur⌋ := by
  simp [timeVec, linspaceEx]

lemma timeVec_getD (fs dur : ℚ) (i : ℕ) (hi : i < Int.toNat ⌊fs * dur⌋) :
    (timeVec fs dur).getD i 0 = (i : ℚ) * dur / (Int.toNat ⌊fs * dur⌋ : ℚ) := by
  unfold timeVec
  rw [linspaceEx_getD _ _ _ _ hi]
  ring

/-- C4: for every signal type and parameters accepted by `generate`, the
returned time vector and sample array have equal length, and the time vector
has length `floor(fs·duration)` with `t[i] = i / fs`, hence strictly
increasing with constant step `1/fs` — for all positive `fs` and `duration`,
including those where `fs·duration` is not an integer.

The claim is wrong about the sample times: `np.linspace(0, duration, N,
endpoint=False)` spaces the `N = floor(fs·duration)` samples by
`duration / N`, which equals `1/fs` only when `fs·duration` is an integer.
At `fs = 2`, `duration = 5/4` the vector is `[0, 5/8]`: the second sample is
`5/8`, not `t[1] = 1/fs = 1/2`. -/
theorem C4_counterexample :
    0 < (2 : ℚ) ∧ 0 < (5 / 4 : ℚ) ∧
    timeVec 2 (5 / 4) = [0, 5 / 8] ∧ (5 / 8 : ℚ) ≠ 1 * (1 / 2) := by
  have hfl : Int.toNat ⌊(2 : ℚ) * (5 / 4)⌋ = 2 := by
    have h2 : ⌊(2 : ℚ) * (5 / 4)⌋ = 2 := by norm_num
    rw [h2]
    rfl
  have hr : List.range 2 = [0, 1] := by decide
  refine ⟨by norm_num, by norm_num, ?_, by norm_num⟩
  rw [timeVec, linspaceEx, hfl, hr]
  norm_num

/-- C4 (amended): for all positive `fs` and `duration`, the time vector has
length `floor(fs·duration) =: N`, entries `t[i] = i · duration / N`, is
strictly increasing with constant step `duration / N` (which equals `1/fs`
exactly when `fs·duration` is an integer), and for every signal type and
parameters the returned time vector and sample array have equal length. -/
theorem C4_time_vector_amended (fs dur : ℚ) (ty : SignalType) (p : SigParams)
    (hfs : 0 < fs) (hdur : 0 < dur) :
    (timeVec fs dur).length = Int.toNat ⌊fs * dur⌋ ∧
    timeVec fs dur =
      (List.range (Int.toNat ⌊fs * dur⌋)).map
        (fun (i : ℕ) => (i : ℚ) * dur / (Int.toNat ⌊fs * dur⌋ : ℚ)) ∧
    List.Pairwise (· < ·) (timeVec fs dur) ∧
    constStep (timeVec fs dur) (dur / (Int.toNat ⌊fs * dur⌋ : ℚ)) ∧
    (fs * dur = (⌊fs * dur⌋ : ℚ) → constStep (timeVec fs dur) (1 / fs)) ∧
    sigLensEq (generate fs dur ty p) := by
  have hstep : constStep (timeVec fs dur) (dur / (Int.toNat ⌊fs * dur⌋ : ℚ)) := by
    intro i hi
    rw [timeVec_length] at hi
    rw [timeVec_getD _ _ _ hi, timeVec_getD _ _ _ (Nat.lt_of_succ_lt hi),
      div_sub_div_same]
    congr 1
    push_cast
    ring
  refine ⟨timeVec_length fs dur, ?_, ?_, hstep, ?_, ?_⟩
  · unfold timeVec linspaceEx
    refine List.map_congr_left ?_
    intro i _
    ring
  · rw [List.pairwise_iff_getElem]
    intro i j hi hj hij
    rw [timeVec_length] at hi hj
    have hn : (0 : ℚ) < (Int.toNat ⌊fs * dur⌋ : ℚ) := by
      exact_mod_cast Nat.lt_of_le_of_lt (Nat.zero_le i) hi
    rw [← List.getD_eq_getElem _ 0, ← List.getD_eq_getElem _ 0,
      timeVec_getD _ _ _ hi, timeVec_getD _ _ _ hj,
      div_lt_div_iff_of_pos_right hn, mul_lt_mul_right hdur]
    exact_mod_cast hij
  · intro hint
    have hnn : (0 : ℤ) ≤ ⌊fs * dur⌋ :=
      Int.floor_nonneg.mpr (mul_pos hfs hdur).le
    have hcast : ((Int.toNat ⌊fs * dur⌋ : ℚ)) = fs * dur :=
      calc ((Int.toNat ⌊fs * dur⌋ : ℚ)) = ((⌊fs * dur⌋ : ℤ) : ℚ) := by
            exact_mod_cast Int.toNat_of_nonneg hnn
        _ = fs * dur := hint.symm
    have heq : dur / (Int.toNat ⌊fs * dur⌋ : ℚ) = 1 / fs := by
      rw [hcast, div_eq_div_iff (mul_pos hfs hdur).ne' hfs.ne']
      ring
    rw [← heq]
    exact hstep
  · intro r hr
    cases ty
    case impulse =>
      rcases htv : timeVec fs dur with _ | ⟨t0, tr⟩
      · simp [generate, htv] at hr
      · simp only [generate, htv, Option.mem_def, Option.some.injEq] at hr
        simp [← hr]
    all_goals
      simp only [generate, Option.mem_def, Option.some.injEq] at hr
      simp [← hr]

/-- C4 witness: the amended time-vector facts instantiated at `fs = 2`,
`duration = 1`, a sine request with default parameters. -/
theorem C4_time_vector_amended_witness :
    0 < (2 : ℚ) ∧ 0 < (1 : ℚ) ∧
    ((timeVec 2 1).length = Int.toNat ⌊(2 : ℚ) * 1⌋ ∧
      timeVec 2 1 =
        (List.range (Int.toNat ⌊(2 : ℚ) * 1⌋)).map
          (fun (i : ℕ) => (i : ℚ) * 1 / (Int.toNat ⌊(2 : ℚ) * 1⌋ : ℚ)) ∧
      List.Pairwise (· < ·) (timeVec 2 1) ∧
      constStep (timeVec 2 1) (1 / (Int.toNat ⌊(2 : ℚ) * 1⌋ : ℚ)) ∧
      ((2 : ℚ) * 1 = (⌊(2 : ℚ) * 1⌋ : ℚ) → constStep (timeVec 2 1) (1 / 2)) ∧
      sigLensEq (generate 2 1 .sine {})) :=
  ⟨by norm_num, by norm_num,
    C4_time_vector_amended 2 1 .sine {} (by norm_num) (by norm_num)⟩

/-- C5: for every `b` and `a` of length 1 (with `a[0]` nonzero) and every
time vector `t`, `impulseResponse` returns the array whose sample 0 is
`b[0]/a[0]` and whose every other sample is 0, and `stepResponse` returns
the constant array of value `b[0]/a[0]` with the same length as `t`.

The claim fails on the empty time vector: the static-gain branch of
`impulse_response` executes `h[0] = b[0] / a[0]` on `np.zeros_like(t)`,
which raises an `IndexError` when `t` is empty instead of returning an
array. -/
theorem C5_counterexample : impulseResponse [2] [1] [] = none := by
  rfl

/-- C5 (amended): for every `b = [b0]` and `a = [a0]` with `a0 ≠ 0` and
every nonempty time vector `t`, `impulseResponse` returns `b0/a0` at sample
0 followed by zeros, and `stepResponse` returns the constant array of value
`b0/a0` with the same length as `t`. -/
theorem C5_static_gain_responses (b0 a0 : ℚ) (t : List ℚ) (ha : a0 ≠ 0)
    (ht : t ≠ []) :
    impulseResponse [b0] [a0] t =
      some (b0 / a0 :: List.replicate (t.length - 1) 0) ∧
    stepResponse [b0] [a0] t =
      some (List.replicate t.length (b0 / a0)) := by
  rcases t with _ | ⟨t0, tr⟩
  · exact absurd rfl ht
  · exact ⟨by simp [impulseResponse], by simp [stepResponse]⟩

/-- C5 witness: static gain `b = [2]`, `a = [1]` on the two-sample time
vector `[0, 1/2]`. -/
theorem C5_static_gain_responses_witness :
    (1 : ℚ) ≠ 0 ∧ ([0, 1 / 2] : List ℚ) ≠ [] ∧
    (impulseResponse [2] [1] [0, 1 / 2] =
        some (2 / 1 :: List.replicate (([0, 1 / 2] : List ℚ).length - 1) 0) ∧
      stepResponse [2] [1] [0, 1 / 2] =
        some (List.replicate ([0, 1 / 2] : List ℚ).length (2 / 1))) :=
  ⟨by norm_num, by simp,
    C5_static_gain_responses 2 1 [0, 1 / 2] (by norm_num) (by simp)⟩

lemma lfilterAux_length (b a x : List ℚ) : ∀ n, (lfilterAux b a x n).length = n
  | 0 => rfl
  | n + 1 => by
    simp [lfilterAux, lfilterAux_length b a x n]

lemma lfilterAux_getD (b a x : List ℚ) (m : ℕ) :
    ∀ n, m < n →
      (lfilterAux b a x n).getD m 0 = lfilterVal b a x (lfilterAux b a x m) m := by
  intro n
  induction n with
  | zero => omega
  | succ n ih =>
    intro hm
    rcases Nat.lt_or_ge m n with hlt | hge
    · rw [lfilterAux, List.getD_append _ _ _ _ (by rw [lfilterAux_length]; exact hlt)]
      exact ih hlt
    · have hm' : m = n := by omega
      subst hm'
      rw [lfilterAux, List.getD_append_right _ _ _ _ (by rw [lfilterAux_length])]
      simp [lfilterAux_length]

lemma lfilter_length (b a x : List ℚ) : (lfilter b a x).length = x.length :=
  lfilterAux_length b a x x.length

lemma lfilter_getD (b a x : List ℚ) (n : ℕ) (h : n < x.length) :
    (lfilter b a x).getD n 0 = lfilterVal b a x (lfilterAux b a x n) n :=
  lfilterAux_getD b a x n x.length h

lemma lfilterVal_fir (b x ys : List ℚ) (n : ℕ) :
    lfilterVal b [1] x ys n =
      ∑ k ∈ Finset.range b.length,
        b.getD k 0 * (if k ≤ n then x.getD (n - k) 0 else 0) := by
  unfold lfilterVal
  norm_num [Finset.sum_range_one]

/-- C8: for every window `N ≥ 1` and every constant input signal of value
`v` with at least `N` samples, applying the Moving Average system
(`b = [1/N]` repeated `N` times, `a = [1]`) via the filtering kernel yields
an output equal to `v` at every index `n ≥ N-1`; only the first `N-1`
output samples (the start-up transient) may differ from `v`. -/
theorem C8_moving_average_constant (N M n : ℕ) (v : ℚ) (hN : 1 ≤ N)
    (h1 : N - 1 ≤ n) (h2 : n < M) :
    (movingAverage (N : ℤ)).1 = List.replicate N (1 / (N : ℚ)) ∧
    (movingAverage (N : ℤ)).2 = [1] ∧
    (lfilter (movingAverage (N : ℤ)).1 (movingAverage (N : ℤ)).2
        (List.replicate M v)).length = M ∧
    (lfilter (movingAverage (N : ℤ)).1 (movingAverage (N : ℤ)).2
        (List.replicate M v)).getD n 0 = v := by
  have hcond : ¬ ((N : ℤ) < 1) := by exact_mod_cast Nat.not_lt.mpr hN
  have hb : (movingAverage (N : ℤ)).1 = List.replicate N (1 / (N : ℚ)) := by
    unfold movingAverage
    rw [if_neg hcond]
    simp
  have ha : (movingAverage (N : ℤ)).2 = [1] := by
    unfold movingAverage
    rw [if_neg hcond]
  have hN0 : ((N : ℚ)) ≠ 0 := by
    exact_mod_cast Nat.pos_iff_ne_zero.mp hN
  refine ⟨hb, ha, ?_, ?_⟩
  · rw [lfilter_length]
    simp
  · rw [hb, ha, lfilter_getD _ _ _ n (by simpa using h2), lfilterVal_fir]
    have hterm : ∀ k ∈ Finset.range (List.replicate N ((1 : ℚ) / N)).length,
        (List.replicate N ((1 : ℚ) / N)).getD k 0 *
          (if k ≤ n then (List.replicate M v).getD (n - k) 0 else 0) =
          (1 / (N : ℚ)) * v := by
      intro k hk
      rw [Finset.mem_range, List.length_replicate] at hk
      rw [List.getD_eq_getElem _ _ (by simpa using hk), List.getElem_replicate,
        if_pos (by omega),
        List.getD_eq_getElem _ _ (by simp; omega), List.getElem_replicate]
    rw [Finset.sum_congr rfl hterm, Finset.sum_const]
    simp only [List.length_replicate, Finset.card_range, nsmul_eq_mul]
    rw [one_div, ← mul_assoc, mul_inv_cancel₀ hN0, one_mul]

/-- C8 witness: window `N = 2` applied to the constant signal `[7, 7, 7]`;
the output at index `1 = N - 1` is `7`. -/
theorem C8_moving_average_constant_witness :
    1 ≤ 2 ∧ 2 - 1 ≤ 1 ∧ 1 < 3 ∧
    ((movingAverage ((2 : ℕ) : ℤ)).1 = List.replicate 2 (1 / ((2 : ℕ) : ℚ)) ∧
      (movingAverage ((2 : ℕ) : ℤ)).2 = [1] ∧
      (lfilter (movingAverage ((2 : ℕ) : ℤ)).1 (movingAverage ((2 : ℕ) : ℤ)).2
          (List.replicate 3 (7 : ℚ))).length = 3 ∧
      (lfilter (movingAverage ((2 : ℕ) : ℤ)).1 (movingAverage ((2 : ℕ) : ℤ)).2
          (List.replicate 3 (7 : ℚ))).getD 1 0 = 7) :=
  ⟨by norm_num, by norm_num, by norm_num,
    C8_moving_average_constant 2 3 1 7 (by norm_num) (by norm_num) (by norm_num)⟩

lemma linspaceIn_length (a b : ℚ) (num : ℕ) : (linspaceIn a b num).length = num := by
  unfold linspaceIn
  split
  · simp [*]
  · simp

lemma frequencyResponse_true (b a : List ℚ) (n : ℕ) (fs : ℚ) :
    frequencyResponse true b a n fs = (fallbackW n fs, List.replicate (n / 2 + 1) 0) := by
  simp [frequencyResponse]

lemma frequencyResponse_false (b a : List ℚ) (n : ℕ) (fs : ℚ) :
    frequencyResponse false b a n fs =
      (freqzW n fs,
        (freqzW n fs).map (fun (w : ℚ) => freqzH b a (2 * Real.pi * (w : ℝ) / (fs : ℝ)))) := by
  simp [frequencyResponse]

/-- C3: for every `b`, `a` and every requested `nPoints`, `frequencyResponse`
returns a frequency array and a response array both of length exactly
`nPoints`, with frequencies monotonically non-decreasing within `[0, fs/2]`;
it never raises, and when the internal evaluation fails entirely it returns
an all-zero complex response over the same frequency grid (same length
`nPoints`).

The claim is wrong about the failure path: the fallback grid is
`np.linspace(0, fs/2, n_points // 2 + 1)`, which has `nPoints // 2 + 1`
entries, not `nPoints`.  At `nPoints = 1024` the fallback returns 513
frequencies. -/
theorem C3_counterexample :
    (frequencyResponse true [1] [1] 1024 1000).1.length = 513 ∧
    (513 : ℕ) ≠ 1024 := by
  constructor
  · rw [frequencyResponse_true, fallbackW, linspaceIn_length]
  · norm_num

/-- C3 (amended): on the successful path both returned arrays have length
exactly `nPoints` and the frequencies are monotonically non-decreasing
within `[0, fs/2]`; the function never raises, but when the internal
evaluation fails entirely it returns the all-zero response over the shorter
inclusive grid of `nPoints / 2 + 1` frequencies, not over an
`nPoints`-length grid. -/
theorem C3_frequency_response_amended (b a : List ℚ) (n : ℕ) (fs : ℚ)
    (hfs : 0 < fs) :
    (frequencyResponse false b a n fs).1.length = n ∧
    (frequencyResponse false b a n fs).2.length = n ∧
    List.Pairwise (· ≤ ·) (frequencyResponse false b a n fs).1 ∧
    inClosedRange (frequencyResponse false b a n fs).1 0 (fs / 2) ∧
    (frequencyResponse true b a n fs).1.length = n / 2 + 1 ∧
    (frequencyResponse true b a n fs).2 = List.replicate (n / 2 + 1) 0 := by
  have hw : (frequencyResponse false b a n fs).1 = freqzW n fs := by
    rw [frequencyResponse_false]
  refine ⟨?_, ?_, ?_, ?_, ?_, by rw [frequencyResponse_true]⟩
  · rw [hw, freqzW, linspaceEx_length]
  · rw [frequencyResponse_false, List.length_map, freqzW, linspaceEx_length]
  · rw [hw, List.pairwise_iff_getElem]
    intro i j hi hj hij
    rw [freqzW, linspaceEx_length] at hi hj
    have hn : (0 : ℚ) < (n : ℚ) := by
      exact_mod_cast Nat.lt_of_le_of_lt (Nat.zero_le i) hi
    simp only [freqzW, linspaceEx, List.getElem_map, List.getElem_range, zero_add, sub_zero]
    rw [div_le_div_iff_of_pos_right hn, mul_le_mul_right (half_pos hfs)]
    exact_mod_cast hij.le
  · intro q hq
    rw [hw] at hq
    simp only [freqzW, linspaceEx, List.mem_map, List.mem_range] at hq
    obtain ⟨k, hk, rfl⟩ := hq
    have hn : (0 : ℚ) < (n : ℚ) := by
      exact_mod_cast Nat.lt_of_le_of_lt (Nat.zero_le k) hk
    constructor
    · rw [zero_add, sub_zero]
      positivity
    · rw [zero_add, sub_zero, div_le_iff₀ hn]
      have hk' : (k : ℚ) ≤ (n : ℚ) := by exact_mod_cast hk.le
      calc (k : ℚ) * (fs / 2) ≤ (n : ℚ) * (fs / 2) :=
            mul_le_mul_of_nonneg_right hk' (half_pos hfs).le
        _ = fs / 2 * (n : ℚ) := mul_comm _ _
  · rw [frequencyResponse_true, fallbackW, linspaceIn_length]

/-- C3 witness: the amended frequency-response facts instantiated at
`b = a = [1]`, `nPoints = 4`, `fs = 1000`. -/
theorem C3_frequency_response_amended_witness :
    (0 : ℚ) < 1000 ∧
    ((frequencyResponse false [1] [1] 4 1000).1.length = 4 ∧
      (frequencyResponse false [1] [1] 4 1000).2.length = 4 ∧
      List.Pairwise (· ≤ ·) (frequencyResponse false [1] [1] 4 1000).1 ∧
      inClosedRange (frequencyResponse false [1] [1] 4 1000).1 0 (1000 / 2) ∧
      (frequencyResponse true [1] [1] 4 1000).1.length = 4 / 2 + 1 ∧
      (frequencyResponse true [1] [1] 4 1000).2 = List.replicate (4 / 2 + 1) 0) :=
  ⟨by norm_num, C3_frequency_response_amended [1] [1] 4 1000 (by norm_num)⟩

lemma timeVec_eq_nil (fs dur : ℚ) (h : ⌊fs * dur⌋ < 1) : timeVec fs dur = [] := by
  unfold timeVec linspaceEx
  have h0 : Int.toNat ⌊fs * dur⌋ = 0 := Int.toNat_eq_zero.mpr (by omega)
  rw [h0]
  rfl

/-- C9: when the configured time vector is empty (`int(fs*duration) < 1`),
`generate('Impulse', …)` fails — `np.argmin` over the empty distance array
raises a `ValueError` that is not one of the documented error kinds — while
every other recognized signal type returns an empty `Signal` in that
configuration. -/
theorem C9_empty_time_vector (fs dur : ℚ) (p : SigParams) (ty : SignalType)
    (hfl : ⌊fs * dur⌋ < 1) (hty : ty ≠ SignalType.impulse) :
    generate fs dur SignalType.impulse p = none ∧
    generate fs dur ty p = some ([], []) := by
  have ht : timeVec fs dur = [] := timeVec_eq_nil fs dur hfl
  constructor
  · simp [generate, ht]
  · cases ty
    case impulse => exact absurd rfl hty
    all_goals simp [generate, ht]

/-- C9 witness: at `fs = 1`, `duration = 0` the time vector is empty; the
Impulse request fails while a Sine request returns the empty signal. -/
theorem C9_empty_time_vector_witness :
    ⌊(1 : ℚ) * 0⌋ < 1 ∧ SignalType.sine ≠ SignalType.impulse ∧
    (generate 1 0 SignalType.impulse {} = none ∧
      generate 1 0 SignalType.sine {} = some ([], [])) :=
  ⟨by norm_num, by decide,
    C9_empty_time_vector 1 0 {} SignalType.sine (by norm_num) (by decide)⟩

lemma listMinD_le_init (l : List ℚ) : ∀ d, listMinD l d ≤ d := by
  induction l with
  | nil => intro d; exact le_refl d
  | cons x xs ih => intro d; exact le_trans (ih (min d x)) (min_le_left d x)

lemma listMinD_le_mem (l : List ℚ) : ∀ d, ∀ y ∈ l, listMinD l d ≤ y := by
  induction l with
  | nil => intro d y hy; simp at hy
  | cons x xs ih =>
    intro d y hy
    rcases List.mem_cons.mp hy with rfl | hmem
    · exact le_trans (listMinD_le_init xs (min d y)) (min_le_right d y)
    · exact ih (min d x) y hmem

lemma listMinD_mem_or (l : List ℚ) : ∀ d, listMinD l d = d ∨ listMinD l d ∈ l := by
  induction l with
  | nil => intro d; exact Or.inl rfl
  | cons x xs ih =>
    intro d
    rcases ih (min d x) with h | h
    · rcases le_total d x with hdx | hxd
      · left
        simp only [listMinD]
        rw [h, min_eq_left hdx]
      · right
        simp only [listMinD]
        rw [h, min_eq_right hxd]
        exact List.mem_cons_self x xs
    · right
      simp only [listMinD]
      exact List.mem_cons_of_mem x h

lemma listMinD_head_mem (l : List ℚ) (hl : l ≠ []) :
    listMinD l (l.headD 0) ∈ l := by
  rcases l with _ | ⟨x, xs⟩
  · exact absurd rfl hl
  · rcases listMinD_mem_or (x :: xs) ((x :: xs).headD 0) with h | h
    · rw [h]
      exact List.mem_cons_self x xs
    · exact h

lemma nearestIdx_lt_length (t : List ℚ) (s : ℚ) (ht : t ≠ []) :
    nearestIdx t s < t.length := by
  unfold nearestIdx
  have hd : t.map (fun (ti : ℚ) => |ti - s|) ≠ [] := by
    simpa using ht
  have hmem := listMinD_head_mem _ hd
  have := List.indexOf_lt_length.mpr hmem
  simpa using this

lemma nearestIdx_isNearest (t : List ℚ) (s : ℚ) (ht : t ≠ []) :
    isNearestTime t s (nearestIdx t s) := by
  have hlt := nearestIdx_lt_length t s ht
  refine ⟨hlt, ?_⟩
  intro j hj
  have hd : t.map (fun (ti : ℚ) => |ti - s|) ≠ [] := by
    simpa using ht
  set d := t.map (fun (ti : ℚ) => |ti - s|) with hdef
  set m := listMinD d (d.headD 0) with hm
  have hmem : m ∈ d := listMinD_head_mem d hd
  have hidxlt : d.indexOf m < d.length := List.indexOf_lt_length.mpr hmem
  have hidx : nearestIdx t s = d.indexOf m := rfl
  have hlt' : nearestIdx t s < t.length := hlt
  have hdlen : d.length = t.length := by simp [hdef]
  have hvalue : d.getD (nearestIdx t s) 0 = m := by
    rw [hidx, List.getD_eq_getElem _ _ hidxlt]
    exact List.getElem_indexOf hidxlt
  have hleft : d.getD (nearestIdx t s) 0 = |t.getD (nearestIdx t s) 0 - s| := by
    rw [List.getD_eq_getElem _ _ (hdlen ▸ hlt'), List.getD_eq_getElem _ _ hlt']
    simp [hdef]
  have hright : d.getD j 0 = |t.getD j 0 - s| := by
    rw [List.getD_eq_getElem _ _ (hdlen ▸ hj), List.getD_eq_getElem _ _ hj]
    simp [hdef]
  have hmemj : d.getD j 0 ∈ d := by
    rw [List.getD_eq_getElem _ _ (hdlen ▸ hj)]
    exact List.getElem_mem _
  have := listMinD_le_mem d (d.headD 0) _ hmemj
  rw [← hm, ← hvalue, hleft, hright] at this
  exact this

/-- C6: `generate('Impulse', {amplitude: A, impulse_time: s, dc_offset: D})`
returns a sample array that is 0 at every index except the single index
whose sample time is nearest to `s`, where it equals `A`; the DC offset `D`
is not added to any sample, unlike every other signal type.  (`np.argmin`
picks the first index attaining the minimal distance, which settles ties;
the hypothesis requires the configured time vector to be nonempty, since an
empty one makes the Impulse branch fail — claim C9.) -/
theorem C6_impulse_signal (fs dur : ℚ) (p : SigParams)
    (ht : timeVec fs dur ≠ []) :
    (generate fs dur SignalType.impulse p).isSome = true ∧
    ((generate fs dur SignalType.impulse p).getD ([], [])).1 = timeVec fs dur ∧
    ((generate fs dur SignalType.impulse p).getD ([], [])).2.length =
      (timeVec fs dur).length ∧
    isScaledImpulseAt ((generate fs dur SignalType.impulse p).getD ([], [])).2
      (nearestIdx (timeVec fs dur) p.impulseTime) ((p.amplitude : ℝ)) ∧
    isNearestTime (timeVec fs dur) p.impulseTime
      (nearestIdx (timeVec fs dur) p.impulseTime) ∧
    generate fs dur SignalType.impulse p =
      generate fs dur SignalType.impulse { p with dcOffset := 0 } := by
  rcases htv : timeVec fs dur with _ | ⟨t0, tr⟩
  · exact absurd htv ht
  have hgen : generate fs dur SignalType.impulse p =
      some (t0 :: tr, (List.range (t0 :: tr).length).map (fun (j : ℕ) =>
        if j = nearestIdx (t0 :: tr) p.impulseTime then (p.amplitude : ℝ) else 0)) := by
    simp [generate, htv]
  have hgen0 : generate fs dur SignalType.impulse { p with dcOffset := 0 } =
      some (t0 :: tr, (List.range (t0 :: tr).length).map (fun (j : ℕ) =>
        if j = nearestIdx (t0 :: tr) p.impulseTime then (p.amplitude : ℝ) else 0)) := by
    simp [generate, htv]
  have hidxlt : nearestIdx (t0 :: tr) p.impulseTime < (t0 :: tr).length :=
    nearestIdx_lt_length (t0 :: tr) p.impulseTime (by simp)
  refine ⟨by rw [hgen]; rfl, by rw [hgen]; rfl, ?_, ?_, ?_, by rw [hgen, hgen0]⟩
  · rw [hgen]
    simp
  · rw [hgen]
    constructor
    · simp only [Option.getD_some]
      rw [List.getD_eq_getElem _ _ (by simpa using hidxlt)]
      simp
    · intro j hj hne
      simp only [Option.getD_some] at hj ⊢
      rw [List.getD_eq_getElem _ _ hj]
      simp only [List.getElem_map, List.getElem_range]
      rw [if_neg]
      intro hcontra
      exact hne (by simpa [List.length_map, List.length_range] using hcontra)
  · exact nearestIdx_isNearest (t0 :: tr) p.impulseTime (by simp)

/-- Concrete parameter record used by the C6 witness: amplitude 2 and a
nonzero DC offset 7, all other fields at their defaults. -/
def c6Params : SigParams := { amplitude := 2, dcOffset := 7 }

/-- C6 witness: at `fs = 1`, `duration = 1` (time vector `[0]`), amplitude
2 and DC offset 7, the Impulse signal is `[2]`: the offset is not added. -/
theorem C6_impulse_signal_witness :
    timeVec 1 1 ≠ [] ∧
    ((generate 1 1 SignalType.impulse c6Params).isSome = true ∧
      ((generate 1 1 SignalType.impulse c6Params).getD ([], [])).1 = timeVec 1 1 ∧
      ((generate 1 1 SignalType.impulse c6Params).getD ([], [])).2.length =
        (timeVec 1 1).length ∧
      isScaledImpulseAt ((generate 1 1 SignalType.impulse c6Params).getD ([], [])).2
        (nearestIdx (timeVec 1 1) c6Params.impulseTime) ((c6Params.amplitude : ℝ)) ∧
      isNearestTime (timeVec 1 1) c6Params.impulseTime
        (nearestIdx (timeVec 1 1) c6Params.impulseTime) ∧
      generate 1 1 SignalType.impulse c6Params =
        generate 1 1 SignalType.impulse { c6Params with dcOffset := 0 }) := by
  have h1 : Int.toNat ⌊(1 : ℚ) * 1⌋ = 1 := by
    have h2 : ⌊(1 : ℚ) * 1⌋ = 1 := by norm_num
    rw [h2]
    rfl
  have ht : timeVec 1 1 ≠ [] := by
    rw [timeVec, h1]
    simp [linspaceEx]
  exact ⟨ht, C6_impulse_signal 1 1 c6Params ht⟩

lemma zPolySum_none (c : List ℚ) (z : ℂ) (h : z = 0 ∧ 2 ≤ c.length) :
    zPolySum c z = none := by
  unfold zPolySum
  rw [if_pos h]

lemma zPolySum_some (c : List ℚ) (z : ℂ) (h : ¬ (z = 0 ∧ 2 ≤ c.length)) :
    zPolySum c z =
      some (∑ k ∈ Finset.range c.length, (c.getD k 0 : ℂ) * z ^ (-(k : ℤ))) := by
  unfold zPolySum
  rw [if_neg h]

lemma zEvaluate_none_left (z : ℂ) (b a : List ℚ) (h : zPolySum b z = none) :
    zEvaluate z b a = none := by
  unfold zEvaluate
  rw [h]

lemma zEvaluate_none_right (z : ℂ) (b a : List ℚ) (h : zPolySum a z = none) :
    zEvaluate z b a = none := by
  unfold zEvaluate
  rw [h]
  cases hB : zPolySum b z <;> rfl

lemma zEvaluate_den_zero (z : ℂ) (b a : List ℚ) (h : zPolySum a z = some 0) :
    zEvaluate z b a = none := by
  unfold zEvaluate
  rw [h]
  cases hB : zPolySum b z
  · rfl
  · simp

lemma expSum (N : ℕ) (hN : N ≠ 0) (j : ℤ) :
    (∑ k ∈ Finset.range N,
        Complex.exp (2 * Real.pi * Complex.I * j * k / N)) =
      if (N : ℤ) ∣ j then (N : ℂ) else 0 := by
  have hz : IsPrimitiveRoot (Complex.exp (2 * Real.pi * Complex.I / N)) N :=
    Complex.isPrimitiveRoot_exp N hN
  set z : ℂ := Complex.exp (2 * Real.pi * Complex.I / N) with hzdef
  have hterm : ∀ k : ℕ,
      Complex.exp (2 * Real.pi * Complex.I * j * k / N) = (z ^ j) ^ k := by
    intro k
    rw [hzdef, ← Complex.exp_int_mul, ← Complex.exp_nat_mul]
    congr 1
    ring
  rw [Finset.sum_congr rfl (fun k _ => hterm k)]
  by_cases hdvd : (N : ℤ) ∣ j
  · have hw : z ^ j = 1 := (hz.zpow_eq_one_iff_dvd j).mpr hdvd
    simp [hw, hdvd]
  · have hw : z ^ j ≠ 1 := fun hcon => hdvd ((hz.zpow_eq_one_iff_dvd j).mp hcon)
    rw [if_neg hdvd, geom_sum_eq hw]
    have hpow : (z ^ j) ^ N = 1 := by
      rw [← zpow_natCast (z ^ j) N, ← zpow_mul, mul_comm, zpow_mul, zpow_natCast,
        hz.pow_eq_one, one_zpow]
    rw [hpow, sub_self, zero_div]

lemma dft_inv (N : ℕ) (x : ℕ → ℝ) (m : ℕ) (hm : m < N) :
    ((∑ k ∈ Finset.range N,
        (∑ n ∈ Finset.range N,
            (x n : ℂ) * Complex.exp (-(2 * Real.pi * Complex.I) * k * n / N)) *
          Complex.exp ((2 * Real.pi * Complex.I) * k * m / N)) / N).re = x m := by
  have hN : N ≠ 0 := by omega
  have hN0 : ((N : ℂ)) ≠ 0 := Nat.cast_ne_zero.mpr hN
  have hcomb : ∀ k n : ℕ,
      (x n : ℂ) * Complex.exp (-(2 * Real.pi * Complex.I) * k * n / N) *
        Complex.exp ((2 * Real.pi * Complex.I) * k * m / N) =
      (x n : ℂ) * Complex.exp (2 * Real.pi * Complex.I * ((m : ℂ) - (n : ℂ)) * k / N) := by
    intro k n
    rw [mul_assoc, ← Complex.exp_add]
    congr 2
    ring
  have hexp : ∀ n : ℕ,
      (∑ k ∈ Finset.range N,
          Complex.exp (2 * Real.pi * Complex.I * ((m : ℂ) - (n : ℂ)) * k / N)) =
        if (N : ℤ) ∣ ((m : ℤ) - n) then (N : ℂ) else 0 := by
    intro n
    rw [← expSum N hN ((m : ℤ) - n)]
    refine Finset.sum_congr rfl (fun k _ => ?_)
    congr 1
    push_cast
    ring
  have hmain : (∑ k ∈ Finset.range N,
      (∑ n ∈ Finset.range N,
          (x n : ℂ) * Complex.exp (-(2 * Real.pi * Complex.I) * k * n / N)) *
        Complex.exp ((2 * Real.pi * Complex.I) * k * m / N)) = (x m : ℂ) * N := by
    calc (∑ k ∈ Finset.range N,
        (∑ n ∈ Finset.range N,
            (x n : ℂ) * Complex.exp (-(2 * Real.pi * Complex.I) * k * n / N)) *
          Complex.exp ((2 * Real.pi * Complex.I) * k * m / N))
        = ∑ k ∈ Finset.range N, ∑ n ∈ Finset.range N,
            (x n : ℂ) * Complex.exp (-(2 * Real.pi * Complex.I) * k * n / N) *
              Complex.exp ((2 * Real.pi * Complex.I) * k * m / N) := by
          exact Finset.sum_congr rfl (fun k _ => Finset.sum_mul _ _ _)
      _ = ∑ n ∈ Finset.range N, ∑ k ∈ Finset.range N,
            (x n : ℂ) * Complex.exp (-(2 * Real.pi * Complex.I) * k * n / N) *
              Complex.exp ((2 * Real.pi * Complex.I) * k * m / N) := Finset.sum_comm
      _ = ∑ n ∈ Finset.range N, (x n : ℂ) *
            ∑ k ∈ Finset.range N,
              Complex.exp (2 * Real.pi * Complex.I * ((m : ℂ) - (n : ℂ)) * k / N) := by
          refine Finset.sum_congr rfl (fun n _ => ?_)
          rw [Finset.mul_sum]
          exact Finset.sum_congr rfl (fun k _ => hcomb k n)
      _ = ∑ n ∈ Finset.range N, (x n : ℂ) *
            (if (N : ℤ) ∣ ((m : ℤ) - n) then (N : ℂ) else 0) := by
          exact Finset.sum_congr rfl (fun n _ => by rw [hexp n])
      _ = (x m : ℂ) * N := by
          rw [Finset.sum_eq_single m]
          · rw [if_pos (by simp)]
          · intro n hn hne
            rw [if_neg, mul_zero]
            intro hdvd
            have hnn := Finset.mem_range.mp hn
            have habs : |(m : ℤ) - n| < (N : ℤ) := by
              rw [abs_lt]
              omega
            have h0 : ((m : ℤ) - n) = 0 := Int.eq_zero_of_abs_lt_dvd hdvd habs
            exact hne (by omega)
          · intro hmem
            exact absurd (Finset.mem_range.mpr hm) hmem
  rw [hmain, mul_div_cancel_right₀ _ hN0, Complex.ofReal_re]

lemma fftVals_length (x : List ℝ) : (fftVals x).length = x.length := by
  simp [fftVals]

lemma fftVals_getD (x : List ℝ) (k : ℕ) (hk : k < x.length) :
    (fftVals x).getD k 0 =
      ∑ n ∈ Finset.range x.length,
        (x.getD n 0 : ℂ) *
          Complex.exp (-(2 * Real.pi * Complex.I) * k * n / x.length) := by
  rw [List.getD_eq_getElem _ _ (by simpa [fftVals] using hk)]
  simp [fftVals]

/-- C7: for every finite real sequence `x` and sampling rate `fs`, composing
`fft` and `ifft` is the identity on `x`: under the exact-arithmetic DFT and
inverse-DFT definitions, `ifft` applied to the complex spectrum returned by
`fft(x, fs)` yields the real sequence `x` exactly. -/
theorem C7_fft_ifft_roundtrip (x : List ℝ) (fs : ℚ) : ifft (fft x fs).2 = x := by
  have h2 : (fft x fs).2 = fftVals x := rfl
  rw [h2]
  have hlen : (ifft (fftVals x)).length = x.length := by
    simp [ifft, fftVals]
  refine List.ext_getElem hlen ?_
  intro m hm1 hm2
  simp only [ifft, fftVals_length, List.getElem_map, List.getElem_range]
  rw [Finset.sum_congr rfl
    (fun k hk => by rw [fftVals_getD x k (Finset.mem_range.mp hk)])]
  rw [← List.getD_eq_getElem x 0 hm2]
  exact dft_inv x.length (fun n => x.getD n 0) m hm2

/-- C10: `ZTransform.evaluate` performs unguarded division and unguarded
negative powers: for `z = 0` with more than one coefficient in `b` or `a`,
or for any `z` at which the denominator sum `Σ_k a[k]·z^(-k)` is zero, it
does not return a finite transfer-function value (it fails or yields a
non-finite complex number, modelled as `none`) rather than signaling any
documented error. -/
theorem C10_ztransform_unguarded (z : ℂ) (b a : List ℚ)
    (h : (z = 0 ∧ (2 ≤ b.length ∨ 2 ≤ a.length)) ∨
      (∑ k ∈ Finset.range a.length, (a.getD k 0 : ℂ) * z ^ (-(k : ℤ))) = 0) :
    zEvaluate z b a = none := by
  rcases h with ⟨hz, hb | ha⟩ | hden
  · exact zEvaluate_none_left z b a (zPolySum_none b z ⟨hz, hb⟩)
  · exact zEvaluate_none_right z b a (zPolySum_none a z ⟨hz, ha⟩)
  · by_cases hc : z = 0 ∧ 2 ≤ a.length
    · exact zEvaluate_none_right z b a (zPolySum_none a z hc)
    · refine zEvaluate_den_zero z b a ?_
      rw [zPolySum_some a z hc, hden]

/-- C10 witness: at `z = 0` with numerator `[1, 1]` (two coefficients) the
evaluation has no finite value. -/
theorem C10_ztransform_unguarded_witness : zEvaluate 0 [1, 1] [1] = none :=
  C10_ztransform_unguarded 0 [1, 1] [1] (Or.inl ⟨rfl, Or.inl (by norm_num)⟩)

end SigSim
